import Mathlib

/-!
A shallow embedding of `src/wc/wc.go`: a streaming, byte-driven finite-state
machine that counts lines, words, UTF characters, erroneously-encoded
characters, and bytes, together with the chunked read loop of `count`, the
totals accumulation of `main`, and the field selection of `report`.
-/

set_option maxRecDepth 100000

namespace Wc

/-- A byte of the input stream (Go `byte`). -/
abbrev Byte := Fin 256

/-- The sixteen actions of the transition tables (the `const` block of wc.go).
Each action names the state entered and the counters touched. -/
inductive Action
  | AC2    -- enter statec2
  | AC2R   -- enter statec2, don't count a rune
  | AC2W   -- enter statec2, count a word
  | AC2X   -- enter statec2, count a bad rune
  | AC3    -- enter statec3
  | AC3W   -- enter statec3, count a word
  | AC3X   -- enter statec3, count a bad rune
  | ASP    -- enter statesp
  | ASPN   -- enter statesp, count a newline
  | ASPNX  -- enter statesp, count a newline, count a bad rune
  | ASPX   -- enter statesp, count a bad rune
  | AWD    -- enter statewd
  | AWDR   -- enter statewd, don't count a rune
  | AWDW   -- enter statewd, count a word
  | AWDWX  -- enter statewd, count a word, count a bad rune
  | AWDX   -- enter statewd, count a bad rune
deriving DecidableEq, Fintype

/-- The four decoder states: which of the four 256-entry tables is current.
statesp = at a word boundary, statewd = inside a word,
statec2 = expecting one continuation byte, statec3 = expecting two. -/
inductive State
  | statesp
  | statewd
  | statec2
  | statec3
deriving DecidableEq, Fintype

/-- The `statesp` table of wc.go (looking for the start of a word),
transcribed from its 256 entries by byte range:
0x09 ASP, 0x0A ASPN, 0x20 ASP, other 0x00-0x7F AWDW, 0x80-0xBF AWDWX,
0xC0-0xDF AC2W, 0xE0-0xEF AC3W, 0xF0-0xFF AWDWX. -/
def statesp (b : Byte) : Action :=
  if b.val = 0x09 then .ASP
  else if b.val = 0x0A then .ASPN
  else if b.val = 0x20 then .ASP
  else if b.val ≤ 0x7F then .AWDW
  else if b.val ≤ 0xBF then .AWDWX
  else if b.val ≤ 0xDF then .AC2W
  else if b.val ≤ 0xEF then .AC3W
  else .AWDWX

/-- The `statewd` table of wc.go (looking for the next character in a word):
0x09 ASP, 0x0A ASPN, 0x20 ASP, other 0x00-0x7F AWD, 0x80-0xBF AWDX,
0xC0-0xDF AC2, 0xE0-0xEF AC3, 0xF0-0xFF AWDX. -/
def statewd (b : Byte) : Action :=
  if b.val = 0x09 then .ASP
  else if b.val = 0x0A then .ASPN
  else if b.val = 0x20 then .ASP
  else if b.val ≤ 0x7F then .AWD
  else if b.val ≤ 0xBF then .AWDX
  else if b.val ≤ 0xDF then .AC2
  else if b.val ≤ 0xEF then .AC3
  else .AWDX

/-- The `statec2` table of wc.go (looking for 10xxxxxx to complete a rune):
0x09 ASPX, 0x0A ASPNX, 0x20 ASPX, other 0x00-0x7F AWDX, 0x80-0xBF AWDR,
0xC0-0xDF AC2X, 0xE0-0xEF AC3X, 0xF0-0xFF AWDX. -/
def statec2 (b : Byte) : Action :=
  if b.val = 0x09 then .ASPX
  else if b.val = 0x0A then .ASPNX
  else if b.val = 0x20 then .ASPX
  else if b.val ≤ 0x7F then .AWDX
  else if b.val ≤ 0xBF then .AWDR
  else if b.val ≤ 0xDF then .AC2X
  else if b.val ≤ 0xEF then .AC3X
  else .AWDX

/-- The `statec3` table of wc.go (looking for 10xxxxxx,10xxxxxx to complete
a rune): 0x09 ASPX, 0x0A ASPNX, 0x20 ASPX, other 0x00-0x7F AWDX,
0x80-0xBF AC2R, 0xC0-0xDF AC2X, 0xE0-0xEF AC3X, 0xF0-0xFF AWDX. -/
def statec3 (b : Byte) : Action :=
  if b.val = 0x09 then .ASPX
  else if b.val = 0x0A then .ASPNX
  else if b.val = 0x20 then .ASPX
  else if b.val ≤ 0x7F then .AWDX
  else if b.val ≤ 0xBF then .AC2R
  else if b.val ≤ 0xDF then .AC2X
  else if b.val ≤ 0xEF then .AC3X
  else .AWDX

/-- The table currently in effect (the Go `state` slice variable). -/
def stateTable : State → Byte → Action
  | .statesp => statesp
  | .statewd => statewd
  | .statec2 => statec2
  | .statec3 => statec3

/-- The five counters of wc.go's `counter` struct. -/
structure counter where
  lines : Nat
  words : Nat
  chars : Nat
  errors : Nat
  bytes : Nat
deriving DecidableEq

/-- The all-zero counters (count's reset of n at entry). -/
def counter.zero : counter := ⟨0, 0, 0, 0, 0⟩

/-- The state each action enters (the `state = ...[:]` assignments of
count's switch). -/
def nextState : Action → State
  | .AC2 | .AC2R | .AC2W | .AC2X => .statec2
  | .AC3 | .AC3W | .AC3X => .statec3
  | .ASP | .ASPN | .ASPNX | .ASPX => .statesp
  | .AWD | .AWDR | .AWDW | .AWDWX | .AWDX => .statewd

/-- The counter updates of count's switch, one case per action. -/
def applyCounts : Action → counter → counter
  | .AC2, n => n
  | .AC2R, n => { n with chars := n.chars - 1 }
  | .AC2W, n => { n with words := n.words + 1 }
  | .AC2X, n => { n with errors := n.errors + 1 }
  | .AC3, n => n
  | .AC3W, n => { n with words := n.words + 1 }
  | .AC3X, n => { n with errors := n.errors + 1 }
  | .ASP, n => n
  | .ASPN, n => { n with lines := n.lines + 1 }
  | .ASPNX, n => { n with lines := n.lines + 1, errors := n.errors + 1 }
  | .ASPX, n => { n with errors := n.errors + 1 }
  | .AWD, n => n
  | .AWDR, n => { n with chars := n.chars - 1 }
  | .AWDW, n => { n with words := n.words + 1 }
  | .AWDWX, n => { n with words := n.words + 1, errors := n.errors + 1 }
  | .AWDX, n => { n with errors := n.errors + 1 }

/-- How much an action adds to `lines`. -/
def lineInc : Action → Nat
  | .ASPN | .ASPNX => 1
  | _ => 0

/-- How much an action adds to `words`. -/
def wordInc : Action → Nat
  | .AC2W | .AC3W | .AWDW | .AWDWX => 1
  | _ => 0

/-- How much an action adds to `errors`. -/
def errInc : Action → Nat
  | .AC2X | .AC3X | .ASPNX | .ASPX | .AWDWX | .AWDX => 1
  | _ => 0

/-- How much an action subtracts from `chars` (the "don't count a rune"
retractions AC2R and AWDR). -/
def charDrop : Action → Nat
  | .AC2R | .AWDR => 1
  | _ => 0

/-- One iteration of count's inner per-byte loop: look the byte up in the
current table, enter the new state and apply the counter effects. -/
def stepByte (s : State) (n : counter) (b : Byte) : State × counter :=
  (nextState (stateTable s b), applyCounts (stateTable s b) n)

/-- count's inner loop: step every byte of a chunk in order. -/
def stepBytes (s : State) (n : counter) : List Byte → State × counter
  | [] => (s, n)
  | b :: bs =>
      let p := stepByte s n b
      stepBytes p.1 p.2 bs

/-- One iteration of count's outer read loop on a successfully read chunk:
`n.bytes` and `n.chars` advance by the chunk length up front (the provisional
character count, decreased later by the AC2R/AWDR retractions), then every
byte is stepped in order. -/
def processChunk (s : State) (n : counter) (chunk : List Byte) : State × counter :=
  stepBytes s { n with bytes := n.bytes + chunk.length, chars := n.chars + chunk.length } chunk

/-- count's outer loop over the successive non-empty chunks delivered by the
reads of one source (a zero-length read, i.e. end of source, is modelled by
the list simply ending; the error path is modelled separately by countLoop). -/
def processChunks (s : State) (n : counter) : List (List Byte) → State × counter
  | [] => (s, n)
  | c :: cs =>
      let p := processChunk s n c
      processChunks p.1 p.2 cs

/-- count on one source delivered as a list of chunks: counters reset to
zero, initial state statesp. -/
def count (chunks : List (List Byte)) : counter :=
  (processChunks .statesp counter.zero chunks).2

/-- count on one source delivered as a single chunk. -/
def count1 (bs : List Byte) : counter :=
  (processChunk .statesp counter.zero bs).2

/-- The decoder state after stepping a list of bytes from state s. -/
def runState (s : State) : List Byte → State
  | [] => s
  | b :: bs => runState (nextState (stateTable s b)) bs

/-- Total `lines` increment over a list of bytes stepped from state s. -/
def dLines (s : State) : List Byte → Nat
  | [] => 0
  | b :: bs => lineInc (stateTable s b) + dLines (nextState (stateTable s b)) bs

/-- Total `words` increment over a list of bytes stepped from state s. -/
def dWords (s : State) : List Byte → Nat
  | [] => 0
  | b :: bs => wordInc (stateTable s b) + dWords (nextState (stateTable s b)) bs

/-- Total `errors` increment over a list of bytes stepped from state s. -/
def dErrs (s : State) : List Byte → Nat
  | [] => 0
  | b :: bs => errInc (stateTable s b) + dErrs (nextState (stateTable s b)) bs

/-- Total `chars` retraction over a list of bytes stepped from state s. -/
def dDrops (s : State) : List Byte → Nat
  | [] => 0
  | b :: bs => charDrop (stateTable s b) + dDrops (nextState (stateTable s b)) bs

/-- Whitespace per wc.go: ASCII tab, newline, space. -/
def isWS (b : Byte) : Bool :=
  b.val = 0x09 || b.val = 0x0A || b.val = 0x20

/-- Modelled from the claim's words: counts the maximal runs of consecutive
non-whitespace bytes; a run is opened exactly at a non-whitespace byte seen
while not already inside a run. -/
def runsAux (inRun : Bool) : List Byte → Nat
  | [] => 0
  | b :: bs =>
      if isWS b then runsAux false bs
      else (if inRun then 0 else 1) + runsAux true bs

/-- Modelled from the claim's words: the number of maximal runs of
consecutive bytes not in {0x09, 0x0A, 0x20}. -/
def maximalRuns (bs : List Byte) : Nat := runsAux false bs

/-- Whether a state is inside a run of non-whitespace bytes (every state
but statesp follows a non-whitespace byte). -/
def inRunOf : State → Bool
  | .statesp => false
  | _ => true

/-- Bytes in {0x09, 0x0A, 0x20} or ASCII digits and letters. -/
def plainAscii (b : Byte) : Bool :=
  b.val = 0x09 || b.val = 0x0A || b.val = 0x20 ||
  (0x30 ≤ b.val && b.val ≤ 0x39) ||
  (0x41 ≤ b.val && b.val ≤ 0x5A) ||
  (0x61 ≤ b.val && b.val ≤ 0x7A)

/-- Fieldwise addition of counters (the `t.lines += n.lines; ...` block of
main's loop). -/
def counterAdd (t n : counter) : counter :=
  ⟨t.lines + n.lines, t.words + n.words, t.chars + n.chars,
   t.errors + n.errors, t.bytes + n.bytes⟩

/-- count as called by main: the five counters of the threaded per-source
counter n are set to zero at entry, then the source's chunks are processed
from statesp. -/
def goCount (n : counter) (src : List (List Byte)) : counter :=
  (processChunks .statesp
    { n with lines := 0, words := 0, chars := 0, errors := 0, bytes := 0 } src).2

/-- main's loop over the named sources: threads the per-source counter n,
accumulates the running total t, and records the per-source counters
reported in order. Returns the final total and the reported counters. -/
def mainLoop (n t : counter) : List (List (List Byte)) → counter × List counter
  | [] => (t, [])
  | src :: rest =>
      let m := goCount n src
      let p := mainLoop m (counterAdd t m) rest
      (p.1, m :: p.2)

/-- The sequence of counters main reports for a list of named sources:
one per source in order, then the total exactly when more than one source
was given (`if flag.NArg() > 1`). -/
def mainReports (n t : counter) (srcs : List (List (List Byte))) : List counter :=
  let p := mainLoop n t srcs
  p.2 ++ (if 1 < srcs.length then [p.1] else [])

/-- Modelled from the claim's words: the elementwise sum of a list of
counters, each of the five fields summed separately. -/
def fieldSums (cs : List counter) : counter :=
  ⟨(cs.map counter.lines).sum, (cs.map counter.words).sum,
   (cs.map counter.chars).sum, (cs.map counter.errors).sum,
   (cs.map counter.bytes).sum⟩

/-- The outcome of one Read call on a source: the bytes delivered and
whether an error was reported alongside them. By the io.Reader contract the
byte count nr satisfies 0 ≤ nr ≤ len(buf), so nr is `data.length : Nat`. -/
structure ReadResult where
  data : List Byte
  fail : Bool
deriving DecidableEq

/-- count's outer read loop, error branches included: a read of zero bytes
breaks the loop (whatever the accompanying error), and the `nr < 0` branch
calls os.Exit(1). Returns the final counters and whether os.Exit(1) ran.
The err value of a read is consulted nowhere else, so `fail` is dead data. -/
def countLoop (s : State) (n : counter) : List ReadResult → counter × Bool
  | [] => (n, false)
  | r :: rest =>
      let nr := r.data.length
      if nr = 0 then (n, false)
      else if nr < 0 then (n, true)
      else
        let p := processChunk s n r.data
        countLoop p.1 p.2 rest

/-- The five print-selection flags of wc.go, in option order l, w, c, e, b. -/
structure Flags where
  l : Bool
  w : Bool
  c : Bool
  e : Bool
  b : Bool
deriving DecidableEq

/-- report's field selection: the counter values printed, in the fixed
l, w, c, e, b order, one `if *flag` per field. -/
def reportFields (fl : Flags) (n : counter) : List Nat :=
  (if fl.l then [n.lines] else []) ++
  (if fl.w then [n.words] else []) ++
  (if fl.c then [n.chars] else []) ++
  (if fl.e then [n.errors] else []) ++
  (if fl.b then [n.bytes] else [])

/-- main's flag defaulting: when no flags were given on the command line
(`flag.NFlag() == 0`), the l, w and c flags are turned on. -/
def defaultFlags (fl : Flags) (nflag : Nat) : Flags :=
  if nflag = 0 then { fl with l := true, w := true, c := true } else fl

/-- Each action's counter update, written with the four effect functions. -/
theorem applyCounts_eq (a : Action) (n : counter) :
    applyCounts a n =
      ⟨n.lines + lineInc a, n.words + wordInc a, n.chars - charDrop a,
       n.errors + errInc a, n.bytes⟩ := by
  obtain ⟨l, w, c, e, bt⟩ := n
  cases a <;> simp [applyCounts, lineInc, wordInc, errInc, charDrop]

/-- Stepping a list of bytes: the final state is runState and each counter
moves by its accumulated delta; bytes is untouched by the inner loop. -/
theorem stepBytes_spec (bs : List Byte) : ∀ (s : State) (n : counter),
    stepBytes s n bs =
      (runState s bs,
       ⟨n.lines + dLines s bs, n.words + dWords s bs, n.chars - dDrops s bs,
        n.errors + dErrs s bs, n.bytes⟩) := by
  induction bs with
  | nil =>
      intro s n
      obtain ⟨l, w, c, e, bt⟩ := n
      simp [stepBytes, runState, dLines, dWords, dDrops, dErrs]
  | cons b bs ih =>
      intro s n
      simp only [stepBytes, stepByte, runState, dLines, dWords, dDrops, dErrs,
        ih, applyCounts_eq]
      simp [Nat.add_assoc, Nat.sub_sub]

/-- runState distributes over append. -/
theorem runState_append (xs ys : List Byte) : ∀ s,
    runState s (xs ++ ys) = runState (runState s xs) ys := by
  induction xs with
  | nil => intro s; simp [runState]
  | cons b bs ih => intro s; simp [runState, ih]

/-- dLines distributes over append. -/
theorem dLines_append (xs ys : List Byte) : ∀ s,
    dLines s (xs ++ ys) = dLines s xs + dLines (runState s xs) ys := by
  induction xs with
  | nil => intro s; simp [dLines, runState]
  | cons b bs ih => intro s; simp [dLines, runState, ih, Nat.add_assoc]

/-- dWords distributes over append. -/
theorem dWords_append (xs ys : List Byte) : ∀ s,
    dWords s (xs ++ ys) = dWords s xs + dWords (runState s xs) ys := by
  induction xs with
  | nil => intro s; simp [dWords, runState]
  | cons b bs ih => intro s; simp [dWords, runState, ih, Nat.add_assoc]

/-- dErrs distributes over append. -/
theorem dErrs_append (xs ys : List Byte) : ∀ s,
    dErrs s (xs ++ ys) = dErrs s xs + dErrs (runState s xs) ys := by
  induction xs with
  | nil => intro s; simp [dErrs, runState]
  | cons b bs ih => intro s; simp [dErrs, runState, ih, Nat.add_assoc]

/-- dDrops distributes over append. -/
theorem dDrops_append (xs ys : List Byte) : ∀ s,
    dDrops s (xs ++ ys) = dDrops s xs + dDrops (runState s xs) ys := by
  induction xs with
  | nil => intro s; simp [dDrops, runState]
  | cons b bs ih => intro s; simp [dDrops, runState, ih, Nat.add_assoc]

/-- Every action retracts at most one character. -/
theorem charDrop_le_one (a : Action) : charDrop a ≤ 1 := by
  cases a <;> simp [charDrop]

/-- The chars retraction never exceeds the number of bytes stepped: at most
one retraction per byte. -/
theorem dDrops_le (bs : List Byte) : ∀ s, dDrops s bs ≤ bs.length := by
  induction bs with
  | nil => intro s; simp [dDrops]
  | cons b bs ih =>
      intro s
      have h1 := charDrop_le_one (stateTable s b)
      have h2 := ih (nextState (stateTable s b))
      simp only [dDrops, List.length_cons]
      omega

/-- Unfolding runState one byte at a time. -/
theorem runState_cons (s : State) (b : Byte) (bs : List Byte) :
    runState s (b :: bs) = runState (nextState (stateTable s b)) bs := rfl

/-- Unfolding dDrops one byte at a time. -/
theorem dDrops_cons (s : State) (b : Byte) (bs : List Byte) :
    dDrops s (b :: bs) =
      charDrop (stateTable s b) + dDrops (nextState (stateTable s b)) bs := rfl

/-- dDrops of the empty stream. -/
theorem dDrops_nil (s : State) : dDrops s [] = 0 := rfl

/-- Unfolding dErrs one byte at a time. -/
theorem dErrs_cons (s : State) (b : Byte) (bs : List Byte) :
    dErrs s (b :: bs) =
      errInc (stateTable s b) + dErrs (nextState (stateTable s b)) bs := rfl

/-- dErrs of the empty stream. -/
theorem dErrs_nil (s : State) : dErrs s [] = 0 := rfl

/-- Processing the concatenation of two chunks equals processing them one
after the other, threading state and counters. -/
theorem processChunk_append (s : State) (n : counter) (xs ys : List Byte) :
    processChunk s n (xs ++ ys) =
      processChunk (processChunk s n xs).1 (processChunk s n xs).2 ys := by
  have hx := dDrops_le xs s
  simp only [processChunk, stepBytes_spec, runState_append, dLines_append,
    dWords_append, dErrs_append, dDrops_append, List.length_append,
    Prod.mk.injEq, counter.mk.injEq, eq_self_iff_true, true_and, and_true]
  omega

/-- Feeding a list of chunks one at a time equals feeding their
concatenation as one chunk. -/
theorem processChunks_eq_single (cs : List (List Byte)) : ∀ s n,
    processChunks s n cs = processChunk s n cs.flatten := by
  induction cs with
  | nil =>
      intro s n
      obtain ⟨l, w, c, e, bt⟩ := n
      simp [processChunks, processChunk, stepBytes]
  | cons c cs ih =>
      intro s n
      simp only [processChunks, ih, List.flatten_cons, processChunk_append]

/-- C1: For every byte stream and every partition of it into non-empty
chunks, feeding the chunks in order through the stepping loop while
threading the decoder state across chunk boundaries yields exactly the same
five final counters (lines, words, characters, bad sequences, bytes) as
processing the whole stream as one single chunk. -/
theorem chunking_invariant (chunks : List (List Byte))
    (h : ∀ c ∈ chunks, c ≠ []) :
    count chunks = count1 chunks.flatten := by
  unfold count count1
  rw [processChunks_eq_single]

theorem chunking_invariant_witness :
    count [[(103 : Byte)], [(111 : Byte), (10 : Byte)]] =
      count1 (List.flatten [[(103 : Byte)], [(111 : Byte), (10 : Byte)]]) :=
  chunking_invariant [[103], [111, 10]] (by decide)

/-- A whitespace byte returns every state to statesp and never counts
a word. -/
theorem ws_step : ∀ (s : State) (b : Byte), isWS b = true →
    wordInc (stateTable s b) = 0 ∧ nextState (stateTable s b) = .statesp := by
  decide

/-- A non-whitespace byte always leaves the machine off statesp, and counts
a word exactly when it arrives at statesp. -/
theorem nonws_step : ∀ (s : State) (b : Byte), isWS b = false →
    wordInc (stateTable s b) = (if inRunOf s then 0 else 1) ∧
    inRunOf (nextState (stateTable s b)) = true := by
  decide

/-- The words delta of a stream equals the run count, with the run flag
matching the state. -/
theorem dWords_eq_runsAux (bs : List Byte) : ∀ s,
    dWords s bs = runsAux (inRunOf s) bs := by
  induction bs with
  | nil => intro s; simp [dWords, runsAux]
  | cons b bs ih =>
      intro s
      by_cases hb : isWS b = true
      · obtain ⟨h1, h2⟩ := ws_step s b hb
        simp [dWords, runsAux, hb, h1, h2, ih, inRunOf]
      · have hb' : isWS b = false := by simpa using hb
        obtain ⟨h1, h2⟩ := nonws_step s b hb'
        simp [dWords, runsAux, hb', h1, h2, ih]

/-- The final words counter is the number of maximal non-whitespace runs. -/
theorem count1_words (bs : List Byte) : (count1 bs).words = maximalRuns bs := by
  simp [count1, processChunk, stepBytes_spec, counter.zero, dWords_eq_runsAux,
    maximalRuns, inRunOf]

/-- Appending a trailing whitespace byte does not change the run count. -/
theorem runsAux_append_ws (w : Byte) (hw : isWS w = true) (bs : List Byte) :
    ∀ r, runsAux r (bs ++ [w]) = runsAux r bs := by
  induction bs with
  | nil => intro r; simp [runsAux, hw]
  | cons b bs ih =>
      intro r
      by_cases hb : isWS b = true
      · simp [runsAux, hb, ih]
      · have hb' : isWS b = false := by simpa using hb
        simp [runsAux, hb', ih]

/-- Doubling a whitespace byte does not change the run count. -/
theorem runsAux_dup_ws (w : Byte) (hw : isWS w = true) (ys : List Byte)
    (xs : List Byte) : ∀ r,
    runsAux r (xs ++ w :: w :: ys) = runsAux r (xs ++ w :: ys) := by
  induction xs with
  | nil => intro r; simp [runsAux, hw]
  | cons x xs ih =>
      intro r
      by_cases hx : isWS x = true
      · simp [runsAux, hx, ih]
      · have hx' : isWS x = false := by simpa using hx
        simp [runsAux, hx', ih]

/-- C2: For every byte stream, starting from zeroed counters in the initial
AtWordBoundary state, the final words counter equals the number of maximal
runs of consecutive bytes not in {0x09, 0x0A, 0x20}; leading whitespace,
trailing whitespace, and repeated whitespace runs do not change it. -/
theorem words_eq_maximal_runs (bs xs ys : List Byte) (w : Byte)
    (hw : isWS w = true) :
    (count1 bs).words = maximalRuns bs ∧
    (count1 (w :: bs)).words = (count1 bs).words ∧
    (count1 (bs ++ [w])).words = (count1 bs).words ∧
    (count1 (xs ++ w :: w :: ys)).words = (count1 (xs ++ w :: ys)).words := by
  refine ⟨count1_words bs, ?_, ?_, ?_⟩
  · simp [count1_words, maximalRuns, runsAux, hw]
  · simp [count1_words, maximalRuns, runsAux_append_ws w hw]
  · simp [count1_words, maximalRuns, runsAux_dup_ws w hw]

theorem words_eq_maximal_runs_witness :
    (count1 [(103 : Byte), (32 : Byte), (111 : Byte)]).words =
      maximalRuns [(103 : Byte), (32 : Byte), (111 : Byte)] ∧
    (count1 ((32 : Byte) :: [(103 : Byte), (32 : Byte), (111 : Byte)])).words =
      (count1 [(103 : Byte), (32 : Byte), (111 : Byte)]).words ∧
    (count1 ([(103 : Byte), (32 : Byte), (111 : Byte)] ++ [(32 : Byte)])).words =
      (count1 [(103 : Byte), (32 : Byte), (111 : Byte)]).words ∧
    (count1 ([] ++ (32 : Byte) :: (32 : Byte) :: [(111 : Byte)])).words =
      (count1 ([] ++ (32 : Byte) :: [(111 : Byte)])).words :=
  words_eq_maximal_runs [103, 32, 111] [] [111] 32 (by decide)

/-- A 0x0A byte counts one line from every state; no other byte counts
a line from any state. -/
theorem newline_step : ∀ (s : State) (b : Byte),
    lineInc (stateTable s b) = if b = (10 : Byte) then 1 else 0 := by
  decide

/-- The lines delta of a stream is its number of 0x0A bytes, from every
state. -/
theorem dLines_count (bs : List Byte) : ∀ s,
    dLines s bs = List.count (10 : Byte) bs := by
  induction bs with
  | nil => intro s; simp [dLines]
  | cons b bs ih =>
      intro s
      rw [List.count_cons]
      simp only [dLines, ih, newline_step s b, beq_iff_eq]
      by_cases hb : b = (10 : Byte) <;> simp [hb] <;> omega

/-- C3: For every byte stream, starting from zeroed counters in the initial
AtWordBoundary state, the final lines counter equals the number of 0x0A
bytes in the stream, whatever decoder states are traversed (stepping from
any state and any counters adds exactly the number of 0x0A bytes). -/
theorem lines_eq_newline_count (bs : List Byte) (s : State) (n : counter) :
    (count1 bs).lines = List.count (10 : Byte) bs ∧
    (stepBytes s n bs).2.lines = n.lines + List.count (10 : Byte) bs := by
  constructor
  · simp [count1, processChunk, stepBytes_spec, counter.zero, dLines_count]
  · simp [stepBytes_spec, dLines_count]

/-- count on a single chunk, written out field by field. -/
theorem count1_fields (bs : List Byte) :
    count1 bs =
      ⟨dLines .statesp bs, dWords .statesp bs,
       bs.length - dDrops .statesp bs, dErrs .statesp bs, bs.length⟩ := by
  simp [count1, processChunk, stepBytes_spec, counter.zero]

/-- A 2-byte lead (0xC0-0xDF) enters statec2 from every state and retracts
no character. -/
theorem lead2_step : ∀ (s : State) (b : Byte), 0xC0 ≤ b.val → b.val ≤ 0xDF →
    nextState (stateTable s b) = .statec2 ∧ charDrop (stateTable s b) = 0 := by
  decide

/-- A 3-byte lead (0xE0-0xEF) enters statec3 from every state and retracts
no character. -/
theorem lead3_step : ∀ (s : State) (b : Byte), 0xE0 ≤ b.val → b.val ≤ 0xEF →
    nextState (stateTable s b) = .statec3 ∧ charDrop (stateTable s b) = 0 := by
  decide

/-- A supported lead byte (0xC0-0xEF) retracts no character and enters one
of the two mid-sequence states, from every state. -/
theorem lead_step : ∀ (s : State) (b : Byte), 0xC0 ≤ b.val → b.val ≤ 0xEF →
    charDrop (stateTable s b) = 0 ∧
    (nextState (stateTable s b) = .statec2 ∨
     nextState (stateTable s b) = .statec3) := by
  decide

/-- A continuation byte seen in statec2 completes the pending sequence:
action AWDR. -/
theorem cont_c2_step : ∀ (b : Byte), 0x80 ≤ b.val → b.val ≤ 0xBF →
    stateTable .statec2 b = .AWDR := by
  decide

/-- A continuation byte seen in statec3 advances the pending sequence:
action AC2R. -/
theorem cont_c3_step : ∀ (b : Byte), 0x80 ≤ b.val → b.val ≤ 0xBF →
    stateTable .statec3 b = .AC2R := by
  decide

/-- From statesp or statewd, a supported lead byte (0xC0-0xEF) counts no
bad sequence. -/
theorem lead_noerr_step : ∀ (s : State) (b : Byte),
    (s = .statesp ∨ s = .statewd) → 0xC0 ≤ b.val → b.val ≤ 0xEF →
    errInc (stateTable s b) = 0 := by
  decide

/-- C4: In any stream, each completed 2-byte sequence (a lead in 0xC0-0xDF
followed by a continuation in 0x80-0xBF) contributes bytes += 2 and
characters += 1; each completed 3-byte sequence (a lead in 0xE0-0xEF
followed by two continuations) contributes bytes += 3 and characters += 1;
and a lone lead byte at end-of-stream (reached outside any pending
sequence) contributes bytes += 1, characters += 1, and no bad-sequence
increment. -/
theorem utf8_sequence_contributions (s t : State) (n : counter)
    (c e d d1 d2 : Byte)
    (ht : t = .statesp ∨ t = .statewd)
    (hc1 : 0xC0 ≤ c.val) (hc2 : c.val ≤ 0xDF)
    (he1 : 0xE0 ≤ e.val) (he2 : e.val ≤ 0xEF)
    (hd1 : 0x80 ≤ d.val) (hd2 : d.val ≤ 0xBF)
    (hd11 : 0x80 ≤ d1.val) (hd12 : d1.val ≤ 0xBF)
    (hd21 : 0x80 ≤ d2.val) (hd22 : d2.val ≤ 0xBF) :
    ((processChunk s n [c, d]).2.bytes = n.bytes + 2 ∧
     (processChunk s n [c, d]).2.chars = n.chars + 1) ∧
    ((processChunk s n [e, d1, d2]).2.bytes = n.bytes + 3 ∧
     (processChunk s n [e, d1, d2]).2.chars = n.chars + 1) ∧
    ((processChunk t n [c]).2.bytes = n.bytes + 1 ∧
     (processChunk t n [c]).2.chars = n.chars + 1 ∧
     (processChunk t n [c]).2.errors = n.errors) ∧
    ((processChunk t n [e]).2.bytes = n.bytes + 1 ∧
     (processChunk t n [e]).2.chars = n.chars + 1 ∧
     (processChunk t n [e]).2.errors = n.errors) := by
  obtain ⟨hs2, hdr2⟩ := lead2_step s c hc1 hc2
  obtain ⟨hs3, hdr3⟩ := lead3_step s e he1 he2
  have hdd2 : dDrops s [c, d] = 1 := by
    rw [dDrops_cons, hdr2, hs2, dDrops_cons, cont_c2_step d hd1 hd2]
    decide
  have hdd3 : dDrops s [e, d1, d2] = 2 := by
    rw [dDrops_cons, hdr3, hs3, dDrops_cons, cont_c3_step d1 hd11 hd12,
      dDrops_cons]
    rw [show nextState Action.AC2R = State.statec2 from rfl,
      cont_c2_step d2 hd21 hd22]
    decide
  have hcEF : c.val ≤ 0xEF := by omega
  have htc : dDrops t [c] = 0 := by
    simp [dDrops, (lead2_step t c hc1 hc2).2]
  have hte : dDrops t [e] = 0 := by
    simp [dDrops, (lead3_step t e he1 he2).2]
  have htce : dErrs t [c] = 0 := by
    simp [dErrs, lead_noerr_step t c ht hc1 hcEF]
  have htee : dErrs t [e] = 0 := by
    have : (0xC0 : Nat) ≤ e.val := by omega
    simp [dErrs, lead_noerr_step t e ht this he2]
  refine ⟨⟨?_, ?_⟩, ⟨?_, ?_⟩, ⟨?_, ?_, ?_⟩, ⟨?_, ?_, ?_⟩⟩ <;>
    simp [processChunk, stepBytes_spec, hdd2, hdd3, htc, hte, htce, htee]

theorem utf8_sequence_contributions_witness :
    ((processChunk .statec3 counter.zero
        [(0xC3 : Byte), (0xA9 : Byte)]).2.bytes = counter.zero.bytes + 2 ∧
     (processChunk .statec3 counter.zero
        [(0xC3 : Byte), (0xA9 : Byte)]).2.chars = counter.zero.chars + 1) ∧
    ((processChunk .statec3 counter.zero
        [(0xE2 : Byte), (0x82 : Byte), (0xAC : Byte)]).2.bytes =
          counter.zero.bytes + 3 ∧
     (processChunk .statec3 counter.zero
        [(0xE2 : Byte), (0x82 : Byte), (0xAC : Byte)]).2.chars =
          counter.zero.chars + 1) ∧
    ((processChunk .statesp counter.zero [(0xC3 : Byte)]).2.bytes =
        counter.zero.bytes + 1 ∧
     (processChunk .statesp counter.zero [(0xC3 : Byte)]).2.chars =
        counter.zero.chars + 1 ∧
     (processChunk .statesp counter.zero [(0xC3 : Byte)]).2.errors =
        counter.zero.errors) ∧
    ((processChunk .statesp counter.zero [(0xE2 : Byte)]).2.bytes =
        counter.zero.bytes + 1 ∧
     (processChunk .statesp counter.zero [(0xE2 : Byte)]).2.chars =
        counter.zero.chars + 1 ∧
     (processChunk .statesp counter.zero [(0xE2 : Byte)]).2.errors =
        counter.zero.errors) :=
  utf8_sequence_contributions .statec3 .statesp counter.zero
    0xC3 0xE2 0xA9 0x82 0xAC (Or.inl rfl)
    (by decide) (by decide) (by decide) (by decide) (by decide)
    (by decide) (by decide) (by decide) (by decide) (by decide)

/-- C5 counterexample: from ExpectingContinuation2, the byte 0xF4 increments
bad sequences by exactly 1, not the 2 that the claim predicts (one for the
break plus the invalid-lead effect of the byte-role table). -/
theorem resync_invalid_lead_counterexample :
    (stepBytes .statec2 counter.zero [(0xF4 : Byte)]).2.errors = 1 ∧
    (stepBytes .statec2 counter.zero [(0xF4 : Byte)]).2.errors ≠
      1 + errInc (stateTable .statewd (0xF4 : Byte)) := by
  decide

/-- C5 amended: for every non-continuation byte processed while the state is
ExpectingContinuation2 or ExpectingContinuation3, the step enters the same
state and applies the same line, word and character effects as the byte
arriving from InWord, and counts bad sequences as follows: one bad sequence
(the break) on top of the InWord effect for bytes outside 0xF0-0xFF, but a
single merged bad sequence (1, not 2) for a byte in 0xF0-0xFF. -/
theorem resync_reevaluates_from_inword : ∀ (s : State) (b : Byte),
    (s = .statec2 ∨ s = .statec3) → (b.val < 0x80 ∨ 0xC0 ≤ b.val) →
    nextState (stateTable s b) = nextState (stateTable .statewd b) ∧
    lineInc (stateTable s b) = lineInc (stateTable .statewd b) ∧
    wordInc (stateTable s b) = wordInc (stateTable .statewd b) ∧
    charDrop (stateTable s b) = charDrop (stateTable .statewd b) ∧
    errInc (stateTable s b) =
      (if 0xF0 ≤ b.val then 1 else 1 + errInc (stateTable .statewd b)) := by
  decide

theorem resync_reevaluates_from_inword_witness :
    nextState (stateTable .statec2 (65 : Byte)) =
      nextState (stateTable .statewd (65 : Byte)) ∧
    lineInc (stateTable .statec2 (65 : Byte)) =
      lineInc (stateTable .statewd (65 : Byte)) ∧
    wordInc (stateTable .statec2 (65 : Byte)) =
      wordInc (stateTable .statewd (65 : Byte)) ∧
    charDrop (stateTable .statec2 (65 : Byte)) =
      charDrop (stateTable .statewd (65 : Byte)) ∧
    errInc (stateTable .statec2 (65 : Byte)) =
      (if 0xF0 ≤ (65 : Byte).val then 1
       else 1 + errInc (stateTable .statewd (65 : Byte))) :=
  resync_reevaluates_from_inword .statec2 65 (Or.inl rfl) (by decide)

/-- A whitespace byte, digit or ASCII letter seen in statesp or statewd
counts no bad sequence, retracts no character, and stays in
statesp/statewd. -/
theorem plain_step : ∀ (s : State) (b : Byte),
    (s = .statesp ∨ s = .statewd) → plainAscii b = true →
    errInc (stateTable s b) = 0 ∧ charDrop (stateTable s b) = 0 ∧
    (nextState (stateTable s b) = .statesp ∨
     nextState (stateTable s b) = .statewd) := by
  decide

/-- Over a stream of whitespace, digits and ASCII letters the machine stays
in statesp/statewd and accumulates no errors and no char retractions. -/
theorem plain_deltas (bs : List Byte) : ∀ s,
    (s = State.statesp ∨ s = State.statewd) →
    (∀ b ∈ bs, plainAscii b = true) →
    dErrs s bs = 0 ∧ dDrops s bs = 0 := by
  induction bs with
  | nil => intro s _ _; simp [dErrs, dDrops]
  | cons b bs ih =>
      intro s hs hb
      have hbh : plainAscii b = true := hb b (List.mem_cons_self b bs)
      obtain ⟨h1, h2, h3⟩ := plain_step s b hs hbh
      have hrest := ih (nextState (stateTable s b)) h3
        (fun x hx => hb x (List.mem_cons_of_mem b hx))
      simp [dErrs, dDrops, h1, h2, hrest.1, hrest.2]

/-- C6: For every byte stream whose bytes are all in {0x09, 0x0A, 0x20} or
are ASCII letters/digits, the final counters satisfy bad_sequences = 0 and
characters = bytes. -/
theorem ascii_streams_clean (bs : List Byte)
    (h : ∀ b ∈ bs, plainAscii b = true) :
    (count1 bs).errors = 0 ∧ (count1 bs).chars = (count1 bs).bytes := by
  have hd := plain_deltas bs .statesp (Or.inl rfl) h
  simp [count1_fields, hd.1, hd.2]

theorem ascii_streams_clean_witness :
    (count1 [(103 : Byte), (111 : Byte), (10 : Byte)]).errors = 0 ∧
    (count1 [(103 : Byte), (111 : Byte), (10 : Byte)]).chars =
      (count1 [(103 : Byte), (111 : Byte), (10 : Byte)]).bytes :=
  ascii_streams_clean [103, 111, 10] (by decide)

/-- C7 counterexample: the stream consisting of the lone lead byte 0xC3 ends
mid-sequence (in ExpectingContinuation2); the code leaves the incomplete
sequence counted as one character, so the claim's "is not counted as a
character" fails (while "no retroactive bad sequence" does hold). -/
theorem eos_incomplete_counterexample :
    (count1 [(0xC3 : Byte)]).chars = 1 ∧
    (count1 [(0xC3 : Byte)]).chars ≠ 0 ∧
    (count1 [(0xC3 : Byte)]).errors = 0 ∧
    runState .statesp [(0xC3 : Byte)] = .statec2 := by
  decide

/-- C7 amended: if a source ends while the decoder state is
ExpectingContinuation2 or ExpectingContinuation3, processing stops with no
finalization transition: the incomplete sequence is not retroactively
counted as a bad sequence, and it remains counted as one character (its
provisional per-byte character count is never retracted). -/
theorem eos_incomplete_no_finalization (p : List Byte) (c e d : Byte)
    (hp : runState .statesp p = .statesp ∨ runState .statesp p = .statewd)
    (hc1 : 0xC0 ≤ c.val) (hc2 : c.val ≤ 0xEF)
    (he1 : 0xE0 ≤ e.val) (he2 : e.val ≤ 0xEF)
    (hd1 : 0x80 ≤ d.val) (hd2 : d.val ≤ 0xBF) :
    ((count1 (p ++ [c])).errors = (count1 p).errors ∧
     (count1 (p ++ [c])).chars = (count1 p).chars + 1 ∧
     (runState .statesp (p ++ [c]) = .statec2 ∨
      runState .statesp (p ++ [c]) = .statec3)) ∧
    ((count1 (p ++ [e, d])).errors = (count1 p).errors ∧
     (count1 (p ++ [e, d])).chars = (count1 p).chars + 1 ∧
     runState .statesp (p ++ [e, d]) = .statec2) := by
  have hDp := dDrops_le p .statesp
  obtain ⟨hcd, hcs⟩ := lead_step (runState .statesp p) c hc1 hc2
  have he1' : (0xC0 : Nat) ≤ e.val := by omega
  obtain ⟨hs3, hdr3⟩ := lead3_step (runState .statesp p) e he1 he2
  have hce : errInc (stateTable (runState .statesp p) c) = 0 :=
    lead_noerr_step (runState .statesp p) c hp hc1 hc2
  have hee : errInc (stateTable (runState .statesp p) e) = 0 :=
    lead_noerr_step (runState .statesp p) e hp he1' he2
  have hdc : dDrops (runState .statesp p) [c] = 0 := by simp [dDrops, hcd]
  have hec : dErrs (runState .statesp p) [c] = 0 := by simp [dErrs, hce]
  have hde : dDrops (runState .statesp p) [e, d] = 1 := by
    rw [dDrops_cons, hdr3, hs3, dDrops_cons, cont_c3_step d hd1 hd2]
    decide
  have hee2 : dErrs (runState .statesp p) [e, d] = 0 := by
    rw [dErrs_cons, hee, hs3, dErrs_cons, cont_c3_step d hd1 hd2]
    decide
  refine ⟨⟨?_, ?_, ?_⟩, ⟨?_, ?_, ?_⟩⟩
  · simp [count1_fields, dErrs_append, hec]
  · simp only [count1_fields, List.length_append, dDrops_append, hdc,
      List.length_cons, List.length_nil]
    omega
  · simp [runState_append, runState, hcs]
  · simp [count1_fields, dErrs_append, hee2]
  · simp only [count1_fields, List.length_append, dDrops_append, hde,
      List.length_cons, List.length_nil]
    omega
  · rw [runState_append, runState_cons, hs3, runState_cons,
      cont_c3_step d hd1 hd2]
    decide

theorem eos_incomplete_no_finalization_witness :
    ((count1 ([] ++ [(0xC3 : Byte)])).errors = (count1 []).errors ∧
     (count1 ([] ++ [(0xC3 : Byte)])).chars = (count1 []).chars + 1 ∧
     (runState .statesp ([] ++ [(0xC3 : Byte)]) = .statec2 ∨
      runState .statesp ([] ++ [(0xC3 : Byte)]) = .statec3)) ∧
    ((count1 ([] ++ [(0xE0 : Byte), (0x80 : Byte)])).errors =
       (count1 []).errors ∧
     (count1 ([] ++ [(0xE0 : Byte), (0x80 : Byte)])).chars =
       (count1 []).chars + 1 ∧
     runState .statesp ([] ++ [(0xE0 : Byte), (0x80 : Byte)]) = .statec2) :=
  eos_incomplete_no_finalization [] 0xC3 0xE0 0x80 (Or.inl rfl)
    (by decide) (by decide) (by decide) (by decide) (by decide) (by decide)

/-- count as called by main equals count of the source alone: the reset at
the top of count erases the threaded per-source counter. -/
theorem goCount_eq_count (n : counter) (src : List (List Byte)) :
    goCount n src = count src := rfl

/-- main's loop computes the elementwise sum of the per-source counters on
top of the incoming total, and reports each source's own counters. -/
theorem mainLoop_spec (srcs : List (List (List Byte))) : ∀ n t,
    mainLoop n t srcs =
      (counterAdd t (fieldSums (srcs.map count)), srcs.map count) := by
  induction srcs with
  | nil =>
      intro n t
      obtain ⟨a, b, c, d, e⟩ := t
      simp [mainLoop, fieldSums, counterAdd]
  | cons src rest ih =>
      intro n t
      simp only [mainLoop, goCount_eq_count, ih, List.map_cons, fieldSums,
        counterAdd, List.sum_cons, Prod.mk.injEq, counter.mk.injEq]
      exact ⟨⟨by omega, by omega, by omega, by omega, by omega⟩, trivial⟩

/-- C8: For every list of sources (any number ≥ 0), each of the five
counters on the printed total equals the elementwise sum of the
corresponding per-source counters; the five per-source counters are reset
to zero at the start of processing each source, so the reported per-source
counters depend only on the source and not on the threaded counter; and
the trailing total line is appended exactly when more than one source is
given. -/
theorem totals_elementwise (srcs : List (List (List Byte))) (n0 : counter) :
    (mainLoop n0 counter.zero srcs).1 = fieldSums (srcs.map count) ∧
    (mainLoop n0 counter.zero srcs).2 = srcs.map count ∧
    (∀ (n m : counter) (src : List (List Byte)),
      goCount n src = goCount m src) ∧
    mainReports n0 counter.zero srcs =
      srcs.map count ++
        (if 1 < srcs.length then [fieldSums (srcs.map count)] else []) := by
  have h := mainLoop_spec srcs n0 counter.zero
  have hz : counterAdd counter.zero (fieldSums (srcs.map count)) =
      fieldSums (srcs.map count) := by
    simp [counterAdd, counter.zero]
  refine ⟨?_, ?_, ?_, ?_⟩
  · rw [h, hz]
  · rw [h]
  · intro n m src
    rw [goCount_eq_count, goCount_eq_count]
  · simp [mainReports, h, hz]

/-- C9 (the code contradicts the claim): the read loop never reaches its
error exit. A failed read delivers zero bytes (the io.Reader contract gives
0 ≤ nr, so the modelled nr is a Nat), hence the nr == 0 break fires first
and the nr < 0 os.Exit(1) branch is dead: a mid-stream read failure is
silently treated as end-of-source and the partial counts stand. The second
conjunct evaluates the loop at a failing input: "ab" is read, then a read
fails with zero bytes and an error, and the remaining "c" is never seen;
the loop returns the partial counts of "ab" with no error exit. -/
theorem read_error_never_exits :
    (∀ (reads : List ReadResult) (s : State) (n : counter),
      (countLoop s n reads).2 = false) ∧
    countLoop .statesp counter.zero
      [⟨[97, 98], false⟩, ⟨[], true⟩, ⟨[99], false⟩] =
      (⟨0, 1, 2, 0, 2⟩, false) := by
  constructor
  · intro reads
    induction reads with
    | nil => intro s n; rfl
    | cons r rest ih =>
        intro s n
        by_cases h : r.data.length = 0
        · simp [countLoop, h]
        · simp [countLoop, h, Nat.not_lt_zero, ih]
  · decide

/-- C10: when no command-line count options are given, the defaulted flags
print exactly the lines, words and characters fields in that order — the
same selection as -l -w -c; the bad-sequence and byte counters are still
computed by count (the byte counter always equals the stream length, and a
stream with an encoding error carries a nonzero bad-sequence count) but
neither is among the printed fields. -/
theorem default_flags_print_lwc (n : counter) (bs : List Byte) :
    reportFields (defaultFlags ⟨false, false, false, false, false⟩ 0) n =
      [n.lines, n.words, n.chars] ∧
    reportFields (defaultFlags ⟨false, false, false, false, false⟩ 0) n =
      reportFields ⟨true, true, true, false, false⟩ n ∧
    (count1 bs).bytes = bs.length ∧
    (count1 [(0x80 : Byte)]).errors = 1 := by
  refine ⟨rfl, rfl, ?_, by decide⟩
  simp [count1_fields]

end Wc
